import Mathlib

/-!
Shallow embedding of the QUIC TLS handshake coordinator
(`internal/quic/tls.go`): `Conn.startTLS`, `Conn.handleTLSEvents`,
`tlsKey`, `spaceForLevel` and `Conn.handleCrypto`, together with the
collaborators those functions use.  Collaborators whose code is outside
this file set (the key-derivation primitives, the transport-parameter
codec, the TLS engine itself, the connection sink hooks and the
per-space crypto stream) are either kept abstract in an `Ext` record of
external capabilities or modelled from the specification, as marked on
each definition.
-/

namespace Quic

/-- Error values surfaced by the coordinator.  Go errors are opaque
values; we distinguish the internal-invariant errors built with
fmt.Errorf in the source from errors produced by external
collaborators, and the conflicting-reassembly protocol error. -/
inductive Err where
  | internalError (msg : String)
  | external (code : Nat)
  | conflict
deriving DecidableEq

/-- Connection side, from the Go connSide type. -/
inductive connSide where
  | clientSide
  | serverSide
deriving DecidableEq

/-- Modelled from the spec: keys are opaque derived key material managed
only by slot identity; derivation of the actual material is delegated to
a cryptographic primitive collaborator. -/
structure keys where
  material : Nat
deriving DecidableEq

/-- Modelled from the spec: the transport-parameter payload is treated
as an opaque value; semantic validation of its contents is out of
scope. -/
structure transportParameters where
  val : Nat
deriving DecidableEq

/-- Number spaces, from the Go numberSpace constants (iota). -/
def initialSpace : Nat := 0

/-- Handshake number space. -/
def handshakeSpace : Nat := 1

/-- Application-data number space. -/
def appDataSpace : Nat := 2

/-- Encryption level constants of the external TLS engine
(crypto/tls QUICEncryptionLevel values). -/
def QUICEncryptionLevelInitial : Nat := 0

/-- Early-data encryption level of the external TLS engine; the
coordinator recognizes only Initial, Handshake and Application. -/
def QUICEncryptionLevelEarly : Nat := 1

/-- Handshake encryption level of the external TLS engine. -/
def QUICEncryptionLevelHandshake : Nat := 2

/-- Application encryption level of the external TLS engine. -/
def QUICEncryptionLevelApplication : Nat := 3

/-- Engine events, from the crypto/tls QUICEvent struct: the six kinds
the drain loop dispatches on, plus a constructor standing for any other
kind of the engine event set (which the switch has no case for). -/
inductive Event where
  | noEvent
  | setReadSecret (level suite : Nat) (data : List Nat)
  | setWriteSecret (level suite : Nat) (data : List Nat)
  | writeData (level : Nat) (data : List Nat)
  | handshakeDone
  | transportParameters (data : List Nat)
  | other (kind level suite : Nat) (data : List Nat)
deriving DecidableEq

/-- Whether an event is the quiescence marker. -/
def isNoEvent : Event → Bool
  | Event.noEvent => true
  | _ => false

/-- External capabilities consumed by the coordinator: the
key-derivation primitives (code of this repository outside this file
set), the transport-parameter codec, and the TLS engine operations whose
results the coordinator observes.  Keeping them abstract lets every
theorem hold for any compliant collaborator. -/
structure Ext where
  newKeys : Nat → List Nat → Except Err keys
  initialKeys : List Nat → keys × keys
  unmarshalTransportParams : List Nat → Except Err transportParameters
  marshalTransportParameters : transportParameters → List Nat
  sendSessionTicket : Nat → Option Err
  handleData : Nat → List Nat → Option Err
  startErr : Option Err

/-- Pointwise update of a function-indexed slot array. -/
def updF {α : Type} (f : Nat → α) (i : Nat) (v : α) : Nat → α :=
  fun j => if j = i then v else f j

/-- Modelled from the spec: per-space inbound reorder buffer (the
cryptoStream type, whose code is outside this file set): bytes received
so far keyed by absolute offset, the delivery cursor of the next byte to
feed the engine, and a strict upper bound on stored offsets. -/
structure cryptoStream where
  stored : List (Nat × Nat)
  next : Nat
  hi : Nat

/-- A fresh inbound stream: nothing stored, cursor at offset zero. -/
def cryptoStream.init : cryptoStream := ⟨[], 0, 0⟩

/-- First-match association lookup of a stored byte by offset. -/
def lookupOff : List (Nat × Nat) → Nat → Option Nat
  | [], _ => none
  | e :: t, q => if e.1 = q then some e.2 else lookupOff t q

/-- Modelled from the spec: insert one received byte at an absolute
offset; an identical byte already stored at that offset is deduplicated
silently, a conflicting byte is a protocol error. -/
def insByte (s : cryptoStream) (o b : Nat) : cryptoStream × Option Err :=
  match lookupOff s.stored o with
  | some c => if c = b then (s, none) else (s, some Err.conflict)
  | none => ({ stored := (o, b) :: s.stored, next := s.next, hi := max s.hi (o + 1) }, none)

/-- Modelled from the spec: insert a span of bytes starting at an
offset, byte by byte, stopping at the first conflict. -/
def insData (s : cryptoStream) (off : Nat) (data : List Nat) : cryptoStream × Option Err :=
  match data with
  | [] => (s, none)
  | b :: t =>
    match insByte s off b with
    | (s1, none) => insData s1 (off + 1) t
    | (s1, some e) => (s1, some e)

/-- Modelled from the spec: collect the contiguous run of stored bytes
starting at the cursor, bounded by the given fuel. -/
def extractLoop (stored : List (Nat × Nat)) (next fuel : Nat) : List Nat :=
  match fuel with
  | 0 => []
  | f + 1 =>
    match lookupOff stored next with
    | some b => b :: extractLoop stored (next + 1) f
    | none => []

/-- Modelled from the spec: extract the maximal gap-free prefix
available at the delivery cursor and advance the cursor past it. -/
def cryptoStream.extract (s : cryptoStream) : List Nat × cryptoStream :=
  let p := extractLoop s.stored s.next (s.hi - s.next)
  (p, { s with next := s.next + p.length })

/-- Modelled from the spec: the inbound half of cryptoStream
handleCrypto — insert the span, then extract the maximal contiguous
prefix now available at the cursor; that prefix is what gets fed to the
TLS engine, in offset order. -/
def cryptoStream.handleCrypto (s : cryptoStream) (off : Nat) (data : List Nat) :
    (cryptoStream × List Nat) × Option Err :=
  match insData s off data with
  | (s1, none) =>
    let r := s1.extract
    ((r.2, r.1), none)
  | (s1, some e) => ((s1, []), some e)

/-- Connection state touched by the coordinator.  Key slots and streams
are per-space arrays; the confirmation flag, ticket-send attempt count
and parameter-sink log record the effects of the collaborator hooks
(confirmHandshake, SendSessionTicket, receiveTransportParameters). -/
structure Conn where
  side : connSide
  sessionTicketsDisabled : Bool
  rkeys : Nat → Option keys
  wkeys : Nat → Option keys
  cryptoOut : Nat → List Nat
  cryptoIn : Nat → cryptoStream
  handshakeConfirmed : Option Nat
  ticketRequests : Nat
  receivedParams : List transportParameters
  sentTransportParams : Option (List Nat)

/-- From the source: map an engine encryption level to a number space;
any level outside the three recognized ones is an internal error. -/
def spaceForLevel (level : Nat) : Except Err Nat :=
  if level = QUICEncryptionLevelInitial then Except.ok initialSpace
  else if level = QUICEncryptionLevelHandshake then Except.ok handshakeSpace
  else if level = QUICEncryptionLevelApplication then Except.ok appDataSpace
  else Except.error (Err.internalError "quic: internal error: write handshake data at level")

/-- From the source (the switch opening Conn.handleCrypto): map a number
space to the engine encryption level; any space outside the three known
ones is an internal error. -/
def levelForSpace (space : Nat) : Except Err Nat :=
  if space = initialSpace then Except.ok QUICEncryptionLevelInitial
  else if space = handshakeSpace then Except.ok QUICEncryptionLevelHandshake
  else if space = appDataSpace then Except.ok QUICEncryptionLevelApplication
  else Except.error (Err.internalError "quic: internal error: received CRYPTO frame in unexpected number space")

/-- From the source: extract the space and derived keys carried by a
QUICSetReadSecret or QUICSetWriteSecret event. -/
def tlsKey (ext : Ext) (level suite : Nat) (data : List Nat) : Except Err (Nat × keys) :=
  match spaceForLevel level with
  | Except.error e => Except.error e
  | Except.ok space =>
    match ext.newKeys suite data with
    | Except.error e => Except.error e
    | Except.ok k => Except.ok (space, k)

/-- Modelled from the spec: the connection hook confirming the
handshake — sets the confirmation flag with the given timestamp, at most
once, monotonic false to true. -/
def confirmHandshake (c : Conn) (now : Nat) : Conn :=
  match c.handshakeConfirmed with
  | some _ => c
  | none => { c with handshakeConfirmed := some now }

/-- Modelled from the spec: the connection hook delivering parsed
transport parameters to the parameter sink; we record each delivery. -/
def receiveTransportParameters (c : Conn) (p : transportParameters) : Conn :=
  { c with receivedParams := c.receivedParams ++ [p] }

/-- One dispatch arm of the drain loop in Conn.handleTLSEvents: the
effect of a single engine event on the connection, paired with the
error, if any, that the loop would return for it. -/
def step (ext : Ext) (now : Nat) (c : Conn) (e : Event) : Conn × Option Err :=
  match e with
  | Event.noEvent => (c, none)
  | Event.setReadSecret level suite data =>
    match tlsKey ext level suite data with
    | Except.error err => (c, some err)
    | Except.ok sk => ({ c with rkeys := updF c.rkeys sk.1 (some sk.2) }, none)
  | Event.setWriteSecret level suite data =>
    match tlsKey ext level suite data with
    | Except.error err => (c, some err)
    | Except.ok sk => ({ c with wkeys := updF c.wkeys sk.1 (some sk.2) }, none)
  | Event.writeData level data =>
    match spaceForLevel level with
    | Except.error err => (c, some err)
    | Except.ok space =>
      ({ c with cryptoOut := updF c.cryptoOut space (c.cryptoOut space ++ data) }, none)
  | Event.handshakeDone =>
    if c.side = connSide.serverSide then
      let c1 := confirmHandshake c now
      if c1.sessionTicketsDisabled then (c1, none)
      else
        match ext.sendSessionTicket c1.ticketRequests with
        | some err => ({ c1 with ticketRequests := c1.ticketRequests + 1 }, some err)
        | none => ({ c1 with ticketRequests := c1.ticketRequests + 1 }, none)
    else (c, none)
  | Event.transportParameters data =>
    match ext.unmarshalTransportParams data with
    | Except.error err => (c, some err)
    | Except.ok p => (receiveTransportParameters c p, none)
  | Event.other _ _ _ _ => (c, none)

/-- From the source: the engine-drain loop of Conn.handleTLSEvents.
The engine is modelled by the finite list of events it will yield;
reaching QUICNoEvent (or exhausting the list) is quiescence. -/
def handleTLSEvents (ext : Ext) (now : Nat) : Conn → List Event → Conn × Option Err
  | c, [] => (c, none)
  | c, Event.noEvent :: _ => (c, none)
  | c, e :: rest =>
    match step ext now c e with
    | (c1, none) => handleTLSEvents ext now c1 rest
    | (c1, some err) => (c1, some err)

/-- From the source: Conn.startTLS — derive and install the
initial-space keys from the connection identifier by role, hand the
marshalled transport parameters to the engine, start the engine (a
start failure is returned as is) and enter the drain loop. -/
def startTLS (ext : Ext) (now : Nat) (c : Conn) (initialConnID : List Nat)
    (params : transportParameters) (evs : List Event) : Conn × Option Err :=
  let ck := ext.initialKeys initialConnID
  let c1 :=
    if c.side = connSide.clientSide then
      { c with wkeys := updF c.wkeys initialSpace (some ck.1),
               rkeys := updF c.rkeys initialSpace (some ck.2) }
    else
      { c with wkeys := updF c.wkeys initialSpace (some ck.2),
               rkeys := updF c.rkeys initialSpace (some ck.1) }
  let c2 := { c1 with sentTransportParams := some (ext.marshalTransportParameters params) }
  match ext.startErr with
  | some err => (c2, some err)
  | none => handleTLSEvents ext now c2 evs

/-- From the source: Conn.handleCrypto — map the space to an engine
level (error on an unknown space), run the inbound stream reassembly,
feed the extracted contiguous prefix to the engine at that level, then
re-enter the drain loop. -/
def Conn.handleCrypto (ext : Ext) (now : Nat) (c : Conn) (space off : Nat)
    (data : List Nat) (evs : List Event) : Conn × Option Err :=
  match levelForSpace space with
  | Except.error err => (c, some err)
  | Except.ok level =>
    match cryptoStream.handleCrypto (c.cryptoIn space) off data with
    | (sp, none) =>
      let c1 := { c with cryptoIn := updF c.cryptoIn space sp.1 }
      match ext.handleData level sp.2 with
      | some err => (c1, some err)
      | none => handleTLSEvents ext now c1 evs
    | (sp, some err) => ({ c with cryptoIn := updF c.cryptoIn space sp.1 }, some err)

/-- A sample set of external collaborators, used to exercise the
theorems on concrete runs. -/
def extSample : Ext where
  newKeys := fun suite _ => Except.ok ⟨suite⟩
  initialKeys := fun connID => (⟨connID.sum⟩, ⟨connID.sum + 1⟩)
  unmarshalTransportParams := fun d =>
    if d = [] then Except.error (Err.external 0) else Except.ok ⟨d.length⟩
  marshalTransportParameters := fun p => [p.val]
  sendSessionTicket := fun _ => none
  handleData := fun _ _ => none
  startErr := none

/-- A fresh connection on the given side: no keys installed, empty
streams, unconfirmed, tickets enabled. -/
def connSample (s : connSide) : Conn where
  side := s
  sessionTicketsDisabled := false
  rkeys := fun _ => none
  wkeys := fun _ => none
  cryptoOut := fun _ => []
  cryptoIn := fun _ => cryptoStream.init
  handshakeConfirmed := none
  ticketRequests := 0
  receivedParams := []
  sentTransportParams := none

/-- A connection whose initial-space read slot is already occupied. -/
def connOccupied : Conn :=
  { connSample connSide.serverSide with rkeys := fun j => if j = 0 then some ⟨7⟩ else none }

/-- C1: the claim says a second installation into an occupied
(space, direction) key slot fails with a protocol error rather than
replacing the stored keys.  On the code, a second SetReadSecret for the
same space succeeds (the drain returns no error) and the slot afterwards
holds the second event's keys, not the first's. -/
theorem C1_counterexample :
    (handleTLSEvents extSample 0 (connSample connSide.clientSide)
      [Event.setReadSecret 0 7 [], Event.setReadSecret 0 9 [], Event.noEvent]).2 = none
    ∧ ((handleTLSEvents extSample 0 (connSample connSide.clientSide)
      [Event.setReadSecret 0 7 [], Event.setReadSecret 0 9 [], Event.noEvent]).1).rkeys
        initialSpace = some ⟨9⟩
    ∧ (⟨9⟩ : keys) ≠ (⟨7⟩ : keys) := by
  refine ⟨by decide, by decide, by decide⟩

/-- C1 (amended): a SetReadSecret or SetWriteSecret event at a
recognized level whose key derivation succeeds always installs the new
keys into the slot, succeeding and silently replacing whatever the slot
held before; no occupancy check is made. -/
theorem C1_amended_replaces (ext : Ext) (now : Nat) (c : Conn) (level suite : Nat)
    (data : List Nat) (space : Nat) (k : keys)
    (hl : spaceForLevel level = Except.ok space)
    (hk : ext.newKeys suite data = Except.ok k) :
    step ext now c (Event.setReadSecret level suite data)
      = ({ c with rkeys := updF c.rkeys space (some k) }, none)
    ∧ step ext now c (Event.setWriteSecret level suite data)
      = ({ c with wkeys := updF c.wkeys space (some k) }, none)
    ∧ updF c.rkeys space (some k) space = some k
    ∧ updF c.wkeys space (some k) space = some k := by
  simp [step, tlsKey, hl, hk, updF]

/-- Witness for the amended C1 at a connection whose slot is already
occupied. -/
theorem C1_amended_witness :
    spaceForLevel QUICEncryptionLevelInitial = Except.ok initialSpace
    ∧ extSample.newKeys 9 [] = Except.ok ⟨9⟩
    ∧ (step extSample 0 connOccupied (Event.setReadSecret QUICEncryptionLevelInitial 9 [])
        = ({ connOccupied with rkeys := updF connOccupied.rkeys initialSpace (some ⟨9⟩) }, none)
      ∧ step extSample 0 connOccupied (Event.setWriteSecret QUICEncryptionLevelInitial 9 [])
        = ({ connOccupied with wkeys := updF connOccupied.wkeys initialSpace (some ⟨9⟩) }, none)
      ∧ updF connOccupied.rkeys initialSpace (some ⟨9⟩) initialSpace = some ⟨9⟩
      ∧ updF connOccupied.wkeys initialSpace (some ⟨9⟩) initialSpace = some ⟨9⟩) :=
  ⟨rfl, rfl,
    C1_amended_replaces extSample 0 connOccupied QUICEncryptionLevelInitial 9 []
      initialSpace ⟨9⟩ rfl rfl⟩

/-- C2: started with the same initial connection identifier, the
client-side connection's initial-space write keys equal the server-side
connection's initial-space read keys and vice versa, for any
key-derivation collaborator. -/
theorem C2_initial_key_symmetry (ext : Ext) (now : Nat) (connID : List Nat)
    (params : transportParameters) (cC cS c1 c2 : Conn)
    (hC : cC.side = connSide.clientSide) (hS : cS.side = connSide.serverSide)
    (hstart : ext.startErr = none)
    (h1 : startTLS ext now cC connID params [] = (c1, none))
    (h2 : startTLS ext now cS connID params [] = (c2, none)) :
    c1.wkeys initialSpace = c2.rkeys initialSpace
    ∧ c1.rkeys initialSpace = c2.wkeys initialSpace := by
  simp [startTLS, hC, hS, hstart, handleTLSEvents] at h1 h2
  subst h1
  subst h2
  simp [updF]

/-- Witness for C2 on a concrete identifier. -/
theorem C2_witness :
    (connSample connSide.clientSide).side = connSide.clientSide
    ∧ (connSample connSide.serverSide).side = connSide.serverSide
    ∧ extSample.startErr = none
    ∧ ((startTLS extSample 0 (connSample connSide.clientSide) [3] ⟨5⟩ []).1.wkeys initialSpace
        = (startTLS extSample 0 (connSample connSide.serverSide) [3] ⟨5⟩ []).1.rkeys initialSpace
      ∧ (startTLS extSample 0 (connSample connSide.clientSide) [3] ⟨5⟩ []).1.rkeys initialSpace
        = (startTLS extSample 0 (connSample connSide.serverSide) [3] ⟨5⟩ []).1.wkeys
            initialSpace) :=
  ⟨rfl, rfl, rfl,
    C2_initial_key_symmetry extSample 0 [3] ⟨5⟩ (connSample connSide.clientSide)
      (connSample connSide.serverSide) _ _ rfl rfl rfl rfl rfl⟩

/-- C3: on the server side a HandshakeDone event leaves the
confirmation flag at its earlier timestamp if one was already recorded
and otherwise records the current timestamp — so recurring
HandshakeDone events confirm exactly once — and one session-ticket send
is attempted when and only when session tickets are enabled. -/
theorem C3_handshake_done_server (ext : Ext) (now : Nat) (c : Conn)
    (hs : c.side = connSide.serverSide) :
    (step ext now c Event.handshakeDone).1.handshakeConfirmed
      = some (match c.handshakeConfirmed with | some t => t | none => now)
    ∧ (step ext now c Event.handshakeDone).1.ticketRequests
      = c.ticketRequests + (if c.sessionTicketsDisabled then 0 else 1) := by
  cases hconf : c.handshakeConfirmed <;>
    cases hdis : c.sessionTicketsDisabled <;>
      cases hsend : ext.sendSessionTicket c.ticketRequests <;>
        simp [step, hs, confirmHandshake, hconf, hdis, hsend]

/-- Witness for C3 on a fresh server connection. -/
theorem C3_witness :
    (connSample connSide.serverSide).side = connSide.serverSide
    ∧ ((step extSample 7 (connSample connSide.serverSide) Event.handshakeDone).1.handshakeConfirmed
        = some (match (connSample connSide.serverSide).handshakeConfirmed with
                | some t => t
                | none => 7)
      ∧ (step extSample 7 (connSample connSide.serverSide) Event.handshakeDone).1.ticketRequests
        = (connSample connSide.serverSide).ticketRequests
          + (if (connSample connSide.serverSide).sessionTicketsDisabled then 0 else 1)) :=
  ⟨rfl, C3_handshake_done_server extSample 7 (connSample connSide.serverSide) rfl⟩

/-- C9: on the client side a HandshakeDone event changes no state at
all — no confirmation, no ticket request, no key or stream change — and
the drain loop simply proceeds to the remaining events. -/
theorem C9_handshake_done_client_noop (ext : Ext) (now : Nat) (c : Conn) (rest : List Event)
    (hs : c.side = connSide.clientSide) :
    step ext now c Event.handshakeDone = (c, none)
    ∧ handleTLSEvents ext now c (Event.handshakeDone :: rest)
      = handleTLSEvents ext now c rest := by
  have h1 : step ext now c Event.handshakeDone = (c, none) := by
    simp [step, hs]
  exact ⟨h1, by simp [handleTLSEvents, h1]⟩

/-- Witness for C9 on a fresh client connection. -/
theorem C9_witness :
    (connSample connSide.clientSide).side = connSide.clientSide
    ∧ (step extSample 3 (connSample connSide.clientSide) Event.handshakeDone
        = (connSample connSide.clientSide, none)
      ∧ handleTLSEvents extSample 3 (connSample connSide.clientSide)
          (Event.handshakeDone :: [Event.noEvent])
        = handleTLSEvents extSample 3 (connSample connSide.clientSide) [Event.noEvent]) :=
  ⟨rfl, C9_handshake_done_client_noop extSample 3 (connSample connSide.clientSide)
    [Event.noEvent] rfl⟩

/-- C10: an engine event whose kind is outside the six handled kinds is
silently ignored — the state is unchanged, no error is returned, and
the drain loop continues with the next event. -/
theorem C10_unknown_event_ignored (ext : Ext) (now : Nat) (c : Conn)
    (kind level suite : Nat) (data : List Nat) (rest : List Event) :
    step ext now c (Event.other kind level suite data) = (c, none)
    ∧ handleTLSEvents ext now c (Event.other kind level suite data :: rest)
      = handleTLSEvents ext now c rest := by
  have h1 : step ext now c (Event.other kind level suite data) = (c, none) := by
    simp [step]
  exact ⟨h1, by simp [handleTLSEvents, h1]⟩

/-- Unfolding the drain loop across one successfully processed
non-quiescence event. -/
theorem handleTLSEvents_cons_ok (ext : Ext) (now : Nat) (c c1 : Conn) (e : Event)
    (rest : List Event) (hne : e ≠ Event.noEvent) (h : step ext now c e = (c1, none)) :
    handleTLSEvents ext now c (e :: rest) = handleTLSEvents ext now c1 rest := by
  cases e
  case noEvent => exact absurd rfl hne
  all_goals simp [handleTLSEvents, h]

/-- Unfolding the drain loop across one failing event: the loop returns
that event's error with the state it had reached. -/
theorem handleTLSEvents_cons_err (ext : Ext) (now : Nat) (c c1 : Conn) (e : Event)
    (rest : List Event) (err : Err) (hne : e ≠ Event.noEvent)
    (h : step ext now c e = (c1, some err)) :
    handleTLSEvents ext now c (e :: rest) = (c1, some err) := by
  cases e
  case noEvent => exact absurd rfl hne
  all_goals simp [handleTLSEvents, h]

/-- A fully and successfully processed event prefix composes with the
rest of the event stream: the drain over the concatenation continues
from the state the prefix reached. -/
theorem handleTLSEvents_append (ext : Ext) (now : Nat) :
    ∀ (pre : List Event) (c c1 : Conn) (l : List Event),
      Event.noEvent ∉ pre →
      handleTLSEvents ext now c pre = (c1, none) →
      handleTLSEvents ext now c (pre ++ l) = handleTLSEvents ext now c1 l := by
  intro pre
  induction pre with
  | nil =>
    intro c c1 l _ h
    simp [handleTLSEvents] at h
    subst h
    rfl
  | cons e t ih =>
    intro c c1 l hne h
    have hne1 : e ≠ Event.noEvent := fun he => hne (by simp [he])
    have hnet : Event.noEvent ∉ t := fun ht => hne (List.mem_cons_of_mem _ ht)
    rcases hstep : step ext now c e with ⟨c2, oe⟩
    cases oe with
    | none =>
      rw [handleTLSEvents_cons_ok ext now c c2 e t hne1 hstep] at h
      rw [List.cons_append, handleTLSEvents_cons_ok ext now c c2 e (t ++ l) hne1 hstep]
      exact ih c2 c1 l hnet h
    | some err =>
      rw [handleTLSEvents_cons_err ext now c c2 e t err hne1 hstep] at h
      simp at h

/-- C4: when a SetReadSecret, SetWriteSecret or WriteData event carries
an unrecognized encryption level, the drain loop stops at that event and
returns the protocol error with exactly the state produced by the
previously processed events — no key slot and no outbound stream is
touched for the offending event and prior effects remain in place. -/
theorem C4_unrecognized_level (ext : Ext) (now : Nat) (c c1 : Conn) (pre rest : List Event)
    (e : Event) (level suite : Nat) (data : List Nat) (err : Err)
    (he : e = Event.setReadSecret level suite data ∨ e = Event.setWriteSecret level suite data
      ∨ e = Event.writeData level data)
    (hl : spaceForLevel level = Except.error err)
    (hpre : Event.noEvent ∉ pre)
    (hrun : handleTLSEvents ext now c pre = (c1, none)) :
    handleTLSEvents ext now c (pre ++ e :: rest) = (c1, some err) := by
  have hstep : step ext now c1 e = (c1, some err) := by
    rcases he with rfl | rfl | rfl <;> simp [step, tlsKey, hl]
  have hne : e ≠ Event.noEvent := by
    rcases he with rfl | rfl | rfl <;> simp
  rw [handleTLSEvents_append ext now pre c c1 (e :: rest) hpre hrun]
  exact handleTLSEvents_cons_err ext now c1 c1 e rest err hne hstep

/-- Witness for C4: an event at the Early level (unrecognized by the
coordinator) aborts the drain with the internal error, leaving the
prior state untouched. -/
theorem C4_witness :
    spaceForLevel QUICEncryptionLevelEarly
      = Except.error (Err.internalError "quic: internal error: write handshake data at level")
    ∧ Event.noEvent ∉ ([] : List Event)
    ∧ handleTLSEvents extSample 0 (connSample connSide.clientSide)
        ([] ++ Event.setReadSecret QUICEncryptionLevelEarly 0 [] :: [Event.noEvent])
      = (connSample connSide.clientSide,
         some (Err.internalError "quic: internal error: write handshake data at level")) :=
  ⟨rfl, by simp,
    C4_unrecognized_level extSample 0 (connSample connSide.clientSide)
      (connSample connSide.clientSide) [] [Event.noEvent]
      (Event.setReadSecret QUICEncryptionLevelEarly 0 []) QUICEncryptionLevelEarly 0 []
      (Err.internalError "quic: internal error: write handshake data at level")
      (Or.inl rfl) rfl (by simp) rfl⟩

/-- C5: the space-to-level map used by handleCrypto and the
level-to-space map spaceForLevel are mutually inverse on the three known
values, and every value outside them is rejected with an error in either
direction. -/
theorem C5_space_level_bijection :
    (∀ space, space < 3 → ∃ level, levelForSpace space = Except.ok level
      ∧ spaceForLevel level = Except.ok space)
    ∧ (∀ level space, spaceForLevel level = Except.ok space
        → levelForSpace space = Except.ok level)
    ∧ (∀ space, 3 ≤ space → ∃ err, levelForSpace space = Except.error err)
    ∧ (∀ level, level ≠ QUICEncryptionLevelInitial → level ≠ QUICEncryptionLevelHandshake
        → level ≠ QUICEncryptionLevelApplication
        → ∃ err, spaceForLevel level = Except.error err) := by
  refine ⟨?_, ?_, ?_, ?_⟩
  · intro space h
    interval_cases space
    · exact ⟨QUICEncryptionLevelInitial, rfl, rfl⟩
    · exact ⟨QUICEncryptionLevelHandshake, rfl, rfl⟩
    · exact ⟨QUICEncryptionLevelApplication, rfl, rfl⟩
  · intro level space h
    unfold spaceForLevel at h
    split_ifs at h with h0 h2 h3
    · injection h with hh
      subst hh
      subst h0
      rfl
    · injection h with hh
      subst hh
      subst h2
      rfl
    · injection h with hh
      subst hh
      subst h3
      rfl
  · intro space h
    refine ⟨Err.internalError
      "quic: internal error: received CRYPTO frame in unexpected number space", ?_⟩
    unfold levelForSpace
    rw [if_neg (by simp only [initialSpace]; omega),
        if_neg (by simp only [handshakeSpace]; omega),
        if_neg (by simp only [appDataSpace]; omega)]
  · intro level h0 h2 h3
    refine ⟨Err.internalError "quic: internal error: write handshake data at level", ?_⟩
    unfold spaceForLevel
    rw [if_neg h0, if_neg h2, if_neg h3]

/-- Witness for C5 at concrete values on both directions. -/
theorem C5_witness :
    ((0 : Nat) < 3 ∧ ∃ level, levelForSpace 0 = Except.ok level
      ∧ spaceForLevel level = Except.ok 0)
    ∧ ((3 : Nat) ≤ 5 ∧ ∃ err, levelForSpace 5 = Except.error err)
    ∧ ((1 : Nat) ≠ QUICEncryptionLevelInitial
      ∧ ∃ err, spaceForLevel 1 = Except.error err) :=
  ⟨⟨by decide, C5_space_level_bijection.1 0 (by decide)⟩,
   ⟨by decide, C5_space_level_bijection.2.2.1 5 (by decide)⟩,
   ⟨by decide, C5_space_level_bijection.2.2.2 1 (by decide) (by decide) (by decide)⟩⟩

/-- C6: a TransportParameters event is parsed by the external codec; on
success the parsed value is appended to the parameter sink log, on
failure the drain loop returns the parse error with the sink untouched
and the state unchanged. -/
theorem C6_transport_params (ext : Ext) (now : Nat) (c : Conn) (data : List Nat)
    (rest : List Event) (p : transportParameters) (err : Err) :
    (ext.unmarshalTransportParams data = Except.ok p →
      step ext now c (Event.transportParameters data)
        = ({ c with receivedParams := c.receivedParams ++ [p] }, none))
    ∧ (ext.unmarshalTransportParams data = Except.error err →
      step ext now c (Event.transportParameters data) = (c, some err)
      ∧ handleTLSEvents ext now c (Event.transportParameters data :: rest)
        = (c, some err)) := by
  constructor
  · intro h
    simp [step, h, receiveTransportParameters]
  · intro h
    have h1 : step ext now c (Event.transportParameters data) = (c, some err) := by
      simp [step, h]
    exact ⟨h1, handleTLSEvents_cons_err ext now c c _ rest err (by simp) h1⟩

/-- Witness for C6 on a payload the sample codec accepts. -/
theorem C6_witness :
    extSample.unmarshalTransportParams [1] = Except.ok ⟨1⟩
    ∧ step extSample 0 (connSample connSide.clientSide) (Event.transportParameters [1])
        = ({ connSample connSide.clientSide with
              receivedParams := (connSample connSide.clientSide).receivedParams ++ [⟨1⟩] },
           none) :=
  ⟨rfl, (C6_transport_params extSample 0 (connSample connSide.clientSide) [1] []
      ⟨1⟩ Err.conflict).1 rfl⟩

/-- Plain left-fold of event processing with no quiescence handling:
nothing if some event fails, the reached state otherwise. -/
def stepsRun (ext : Ext) (now : Nat) : Conn → List Event → Option Conn
  | c, [] => some c
  | c, e :: rest =>
    match step ext now c e with
    | (c1, none) => stepsRun ext now c1 rest
    | (_, some _) => none

/-- C8: over any finite event stream the drain loop returns success
exactly when every event strictly before the first NoEvent marker
processes successfully (quiescence reached), and an error exactly when
some such event fails; a handleCrypto call succeeds exactly when the
space is known, reassembly and the engine feed succeed, and the
re-entered drain loop itself succeeds. -/
theorem C8_drain_terminates (ext : Ext) (now : Nat) (c : Conn) (evs : List Event) :
    (∀ c1, handleTLSEvents ext now c evs = (c1, none)
      ↔ stepsRun ext now c (evs.takeWhile (fun e => !(isNoEvent e))) = some c1)
    ∧ ((handleTLSEvents ext now c evs).2 = none
      ↔ (stepsRun ext now c (evs.takeWhile (fun e => !(isNoEvent e)))).isSome = true)
    ∧ (∀ space off data,
        (Conn.handleCrypto ext now c space off data evs).2 = none
        ↔ ∃ level sp, levelForSpace space = Except.ok level
            ∧ cryptoStream.handleCrypto (c.cryptoIn space) off data = (sp, none)
            ∧ ext.handleData level sp.2 = none
            ∧ (handleTLSEvents ext now
                { c with cryptoIn := updF c.cryptoIn space sp.1 } evs).2 = none) := by
  have main : ∀ (l : List Event) (c0 : Conn) (c1 : Conn),
      handleTLSEvents ext now c0 l = (c1, none)
        ↔ stepsRun ext now c0 (l.takeWhile (fun e => !(isNoEvent e))) = some c1 := by
    intro l
    induction l with
    | nil =>
      intro c0 c1
      simp [handleTLSEvents, stepsRun]
    | cons e rest ih =>
      intro c0 c1
      cases e
      case noEvent =>
        simp [handleTLSEvents, List.takeWhile, isNoEvent, stepsRun]
      all_goals {
        rcases hstep : step ext now c0 _ with ⟨c2, oe⟩
        cases oe with
        | none =>
          rw [handleTLSEvents_cons_ok ext now c0 c2 _ rest (by simp) hstep]
          simp only [List.takeWhile, isNoEvent, Bool.not_false, stepsRun, hstep]
          exact ih c2 c1
        | some err =>
          rw [handleTLSEvents_cons_err ext now c0 c2 _ rest err (by simp) hstep]
          simp [List.takeWhile, isNoEvent, stepsRun, hstep]
      }
  refine ⟨main evs c, ?_, ?_⟩
  · constructor
    · intro h
      rcases hres : handleTLSEvents ext now c evs with ⟨c1, oe⟩
      rw [hres] at h
      simp at h
      subst h
      rw [(main evs c c1).mp hres]
      rfl
    · intro h
      rcases hrun : stepsRun ext now c (evs.takeWhile (fun e => !(isNoEvent e))) with _ | c1
      · rw [hrun] at h
        simp at h
      · rw [(main evs c c1).mpr hrun]
  · intro space off data
    unfold Conn.handleCrypto
    rcases hlev : levelForSpace space with e | level
    · simp [hlev]
    · rcases hstr : cryptoStream.handleCrypto (c.cryptoIn space) off data with ⟨sp, oe⟩
      cases oe with
      | none =>
        rcases hfeed : ext.handleData level sp.2 with _ | err
        · simp only [hlev, hstr, hfeed]
          constructor
          · intro h
            exact ⟨level, sp, rfl, rfl, hfeed, h⟩
          · rintro ⟨l2, sp2, hl2, hs2, hf2, h⟩
            injection hl2 with hh
            subst hh
            injection hs2 with hsa hsb
            subst hsa
            exact h
        · simp only [hlev, hstr, hfeed]
          constructor
          · intro h
            exact absurd h (by simp)
          · rintro ⟨l2, sp2, hl2, hs2, hf2, h⟩
            injection hl2 with hh
            subst hh
            injection hs2 with hsa hsb
            subst hsa
            rw [hfeed] at hf2
            exact hf2
      | some err =>
        simp only [hlev, hstr]
        constructor
        · intro h
          exact absurd h (by simp)
        · rintro ⟨l2, sp2, hl2, hs2, hf2, h⟩
          injection hs2

/-- Witness for C8: the drain over a sole quiescence marker succeeds and
returns the unchanged state. -/
theorem C8_witness :
    handleTLSEvents extSample 0 (connSample connSide.clientSide) [Event.noEvent]
      = (connSample connSide.clientSide, none) :=
  ((C8_drain_terminates extSample 0 (connSample connSide.clientSide) [Event.noEvent]).1
    (connSample connSide.clientSide)).mpr rfl

/-- Harness folding a sequence of inbound deliveries for one space
through the reassembly, accumulating the contiguous prefixes handed to
the TLS engine in feed order. -/
def runDeliveries (s : cryptoStream) (fed : List Nat) :
    List (Nat × List Nat) → (cryptoStream × List Nat) × Option Err
  | [] => ((s, fed), none)
  | d :: rest =>
    match cryptoStream.handleCrypto s d.1 d.2 with
    | (sp, none) => runDeliveries sp.1 (fed ++ sp.2) rest
    | (sp, some e) => ((sp.1, fed), some e)

/-- An absolute offset lies inside some delivered span of the list. -/
def coveredBy (ds : List (Nat × List Nat)) (o : Nat) : Prop :=
  ∃ d, d ∈ ds ∧ d.1 ≤ o ∧ o < d.1 + d.2.length

/-- Invariant tying a reassembly state to the byte sequence already fed
to the engine: stored offsets are below the bound, the cursor is within
the bound, the fed sequence is exactly the stored bytes at offsets below
the cursor in offset order, and the cursor sits at a gap. -/
structure StreamInv (s : cryptoStream) (fed : List Nat) : Prop where
  keysBound : ∀ o b, lookupOff s.stored o = some b → o < s.hi
  nextLe : s.next ≤ s.hi
  fedLen : fed.length = s.next
  fedStored : ∀ i, i < s.next → lookupOff s.stored i = fed[i]?
  gapAtNext : lookupOff s.stored s.next = none

/-- Lookup over a freshly consed entry. -/
theorem lookupOff_cons (o b q : Nat) (l : List (Nat × Nat)) :
    lookupOff ((o, b) :: l) q = if o = q then some b else lookupOff l q := rfl

/-- Effect of a successful single-byte insertion: the cursor is kept and
the bound does not shrink, earlier stored bytes persist, the inserted
byte is stored, nothing else appears, and boundedness is preserved. -/
theorem insByte_ok (s : cryptoStream) (o b : Nat) (s1 : cryptoStream)
    (h : insByte s o b = (s1, none)) :
    s1.next = s.next
    ∧ s.hi ≤ s1.hi
    ∧ (∀ q c, lookupOff s.stored q = some c → lookupOff s1.stored q = some c)
    ∧ lookupOff s1.stored o = some b
    ∧ (∀ q c, lookupOff s1.stored q = some c →
        lookupOff s.stored q = some c ∨ (q = o ∧ c = b))
    ∧ ((∀ q c, lookupOff s.stored q = some c → q < s.hi) →
        ∀ q c, lookupOff s1.stored q = some c → q < s1.hi) := by
  unfold insByte at h
  rcases hl : lookupOff s.stored o with _ | c0
  · rw [hl] at h
    injection h with h1 h2
    subst h1
    refine ⟨rfl, le_max_left _ _, ?_, ?_, ?_, ?_⟩
    · intro q c hq
      rw [lookupOff_cons]
      by_cases hoq : o = q
      · subst hoq
        rw [hl] at hq
        cases hq
      · rw [if_neg hoq]
        exact hq
    · rw [lookupOff_cons, if_pos rfl]
    · intro q c hq
      rw [lookupOff_cons] at hq
      by_cases hoq : o = q
      · rw [if_pos hoq] at hq
        injection hq with hq
        exact Or.inr ⟨hoq.symm, hq.symm⟩
      · rw [if_neg hoq] at hq
        exact Or.inl hq
    · intro hb q c hq
      rw [lookupOff_cons] at hq
      by_cases hoq : o = q
      · subst hoq
        exact lt_of_lt_of_le (Nat.lt_succ_self o) (le_max_right _ _)
      · rw [if_neg hoq] at hq
        exact lt_of_lt_of_le (hb q c hq) (le_max_left _ _)
  · rw [hl] at h
    dsimp only at h
    by_cases hcb : c0 = b
    · rw [if_pos hcb] at h
      injection h with h1 h2
      subst h1
      subst hcb
      exact ⟨rfl, le_refl _, fun q c hq => hq, hl, fun q c hq => Or.inl hq,
        fun hb q c hq => hb q c hq⟩
    · rw [if_neg hcb] at h
      injection h with h1 h2
      cases h2

/-- Effect of a successful span insertion, by induction on the span:
the cursor is kept and the bound does not shrink, earlier stored bytes
persist, every byte of the span ends up stored at its offset, nothing
outside the span appears, and boundedness is preserved. -/
theorem insData_ok (data : List Nat) :
    ∀ (s : cryptoStream) (off : Nat) (s1 : cryptoStream),
      insData s off data = (s1, none) →
      s1.next = s.next
      ∧ s.hi ≤ s1.hi
      ∧ (∀ q c, lookupOff s.stored q = some c → lookupOff s1.stored q = some c)
      ∧ (∀ j, j < data.length → lookupOff s1.stored (off + j) = data[j]?)
      ∧ (∀ q c, lookupOff s1.stored q = some c →
          lookupOff s.stored q = some c ∨ (off ≤ q ∧ q < off + data.length))
      ∧ ((∀ q c, lookupOff s.stored q = some c → q < s.hi) →
          ∀ q c, lookupOff s1.stored q = some c → q < s1.hi) := by
  induction data with
  | nil =>
    intro s off s1 h
    unfold insData at h
    injection h with h1 h2
    subst h1
    refine ⟨rfl, le_refl _, fun q c hq => hq, ?_, fun q c hq => Or.inl hq,
      fun hb => hb⟩
    intro j hj
    exact absurd hj (by simp)
  | cons b t ih =>
    intro s off s1 h
    unfold insData at h
    rcases hb : insByte s off b with ⟨s2, ob⟩
    rw [hb] at h
    cases ob with
    | some e => cases h
    | none =>
      obtain ⟨hn2, hh2, hmono2, hself2, hrev2, hbnd2⟩ := insByte_ok s off b s2 hb
      obtain ⟨hn1, hh1, hmono1, hpos1, hrev1, hbnd1⟩ := ih s2 (off + 1) s1 h
      refine ⟨hn1.trans hn2, hh2.trans hh1, fun q c hq => hmono1 q c (hmono2 q c hq),
        ?_, ?_, fun hbd => hbnd1 (hbnd2 hbd)⟩
      · intro j hj
        cases j with
        | zero =>
          simpa using hmono1 off b hself2
        | succ k =>
          have hk : k < t.length := by simpa using hj
          have := hpos1 k hk
          rw [show off + (k + 1) = off + 1 + k by omega]
          simpa using this
      · intro q c hq
        rcases hrev1 q c hq with hq2 | hin
        · rcases hrev2 q c hq2 with hq3 | ⟨rfl, rfl⟩
          · exact Or.inl hq3
          · exact Or.inr ⟨le_refl _, by simp⟩
        · exact Or.inr ⟨by omega, by simp; omega⟩

/-- The extraction loop returns exactly the stored bytes of a
contiguous run starting at the cursor: each returned position matches
the store, at most fuel bytes are returned, and if fuel is not exhausted
the loop stopped at a gap. -/
theorem extractLoop_spec (stored : List (Nat × Nat)) :
    ∀ (fuel next : Nat),
      (∀ i, i < (extractLoop stored next fuel).length →
        lookupOff stored (next + i) = (extractLoop stored next fuel)[i]?)
      ∧ (extractLoop stored next fuel).length ≤ fuel
      ∧ ((extractLoop stored next fuel).length < fuel →
          lookupOff stored (next + (extractLoop stored next fuel).length) = none) := by
  intro fuel
  induction fuel with
  | zero =>
    intro next
    refine ⟨?_, ?_, ?_⟩ <;> simp [extractLoop]
  | succ f ih =>
    intro next
    rcases hl : lookupOff stored next with _ | b
    · refine ⟨?_, ?_, ?_⟩ <;> simp [extractLoop, hl]
    · obtain ⟨ihp, ihl, ihg⟩ := ih (next + 1)
      have hunf : extractLoop stored next (f + 1) = b :: extractLoop stored (next + 1) f := by
        rw [extractLoop, hl]
      refine ⟨?_, ?_, ?_⟩
      · intro i hi
        rw [hunf]
        cases i with
        | zero =>
          simpa using hl
        | succ k =>
          rw [hunf] at hi
          have hk : k < (extractLoop stored (next + 1) f).length := by simpa using hi
          have := ihp k hk
          rw [show next + (k + 1) = next + 1 + k by omega]
          simpa using this
      · rw [hunf]
        simpa using ihl
      · rw [hunf]
        intro hlt
        have hlt2 : (extractLoop stored (next + 1) f).length < f := by simpa using hlt
        have := ihg hlt2
        rw [show next + (b :: extractLoop stored (next + 1) f).length
            = next + 1 + (extractLoop stored (next + 1) f).length by simp; omega]
        exact this

/-- Extraction leaves the store and the bound unchanged, advances the
cursor by exactly the extracted prefix, returns stored bytes in offset
order, keeps the cursor within the bound, and leaves the cursor at a
gap provided all stored offsets are below the bound. -/
theorem extract_spec (s : cryptoStream)
    (hb : ∀ o b, lookupOff s.stored o = some b → o < s.hi)
    (hn : s.next ≤ s.hi) :
    (s.extract).2.stored = s.stored
    ∧ (s.extract).2.hi = s.hi
    ∧ (s.extract).2.next = s.next + (s.extract).1.length
    ∧ (∀ i, i < (s.extract).1.length →
        lookupOff s.stored (s.next + i) = (s.extract).1[i]?)
    ∧ (s.extract).2.next ≤ s.hi
    ∧ lookupOff s.stored ((s.extract).2.next) = none := by
  obtain ⟨hp, hl, hg⟩ := extractLoop_spec s.stored (s.hi - s.next) s.next
  have h1 : (s.extract).1 = extractLoop s.stored s.next (s.hi - s.next) := rfl
  have h2 : (s.extract).2.stored = s.stored := rfl
  have h3 : (s.extract).2.hi = s.hi := rfl
  have h4 : (s.extract).2.next = s.next + (s.extract).1.length := rfl
  have hle : (s.extract).2.next ≤ s.hi := by
    rw [h4, h1]
    omega
  refine ⟨h2, h3, h4, ?_, hle, ?_⟩
  · rw [h1]
    exact hp
  · rcases Nat.lt_or_ge (extractLoop s.stored s.next (s.hi - s.next)).length
      (s.hi - s.next) with hlt | hge
    · rw [h4, h1]
      exact hg hlt
    · have heq : (s.extract).2.next = s.hi := by
        rw [h4, h1]
        omega
      rcases hlook : lookupOff s.stored ((s.extract).2.next) with _ | b
      · rfl
      · have := hb _ _ hlook
        rw [heq] at this
        exact absurd this (lt_irrefl _)

/-- One successful reassembly call preserves the stream invariant with
the extracted prefix appended to the fed sequence; stored bytes persist,
every byte of the delivered span is stored at its offset, and no offset
outside the span appears. -/
theorem streamHandle_ok (s : cryptoStream) (off : Nat) (data : List Nat)
    (sp : cryptoStream × List Nat) (fed : List Nat)
    (h : cryptoStream.handleCrypto s off data = (sp, none))
    (inv : StreamInv s fed) :
    StreamInv sp.1 (fed ++ sp.2)
    ∧ (∀ q c, lookupOff s.stored q = some c → lookupOff sp.1.stored q = some c)
    ∧ (∀ j, j < data.length → lookupOff sp.1.stored (off + j) = data[j]?)
    ∧ (∀ q c, lookupOff sp.1.stored q = some c →
        lookupOff s.stored q = some c ∨ (off ≤ q ∧ q < off + data.length)) := by
  unfold cryptoStream.handleCrypto at h
  rcases hins : insData s off data with ⟨s1, oe⟩
  rw [hins] at h
  cases oe with
  | some e => cases h
  | none =>
    injection h with h1 h2
    obtain ⟨hn1, hh1, hmono1, hpos1, hrev1, hbnd1⟩ := insData_ok data s off s1 hins
    have hb1 : ∀ o b, lookupOff s1.stored o = some b → o < s1.hi := hbnd1 inv.keysBound
    have hnle1 : s1.next ≤ s1.hi := by
      rw [hn1]
      exact le_trans inv.nextLe hh1
    obtain ⟨he1, he2, he3, he4, he5, he6⟩ := extract_spec s1 hb1 hnle1
    have hsp1 : sp.1 = (s1.extract).2 := by rw [← h1]
    have hsp2 : sp.2 = (s1.extract).1 := by rw [← h1]
    have hstored : sp.1.stored = s1.stored := by rw [hsp1, he1]
    refine ⟨?_, ?_, ?_, ?_⟩
    · refine ⟨?_, ?_, ?_, ?_, ?_⟩
      · intro o b hq
        rw [hstored] at hq
        rw [hsp1, he2]
        exact hb1 o b hq
      · rw [hsp1, he2]
        exact he5
      · rw [hsp1, he3, ← hsp2]
        simp [inv.fedLen, hn1]
      · intro i hi
        rw [hstored]
        rw [hsp1, he3, ← hsp2] at hi
        rcases Nat.lt_or_ge i s.next with hlt | hge
        · have hfl : i < fed.length := by rw [inv.fedLen]; exact hlt
          have hfs := inv.fedStored i hlt
          rw [List.getElem?_eq_getElem hfl] at hfs
          rw [List.getElem?_append_left hfl, List.getElem?_eq_getElem hfl]
          exact hmono1 i _ hfs
        · have hi2 : i < s.next + sp.2.length := by
            rw [hn1] at hi
            exact hi
          have hj : i - s.next < sp.2.length := by omega
          have hpos := he4 (i - s.next) (by rw [hsp2] at hj; exact hj)
          rw [← hsp2] at hpos
          rw [hn1] at hpos
          rw [show s.next + (i - s.next) = i by omega] at hpos
          rw [List.getElem?_append_right (by rw [inv.fedLen]; omega)]
          rw [inv.fedLen]
          exact hpos
      · rw [hstored, hsp1]
        exact he6
    · intro q c hq
      rw [hstored]
      exact hmono1 q c hq
    · intro j hj
      rw [hstored]
      exact hpos1 j hj
    · intro q c hq
      rw [hstored] at hq
      exact hrev1 q c hq

/-- Folding a list of successful deliveries preserves the stream
invariant, keeps earlier stored bytes, stores every delivered byte at
its offset, and stores nothing outside the delivered spans. -/
theorem runDeliveries_ok (ds : List (Nat × List Nat)) :
    ∀ (s : cryptoStream) (fed : List Nat) (s1 : cryptoStream) (fed1 : List Nat),
      StreamInv s fed →
      runDeliveries s fed ds = ((s1, fed1), none) →
      StreamInv s1 fed1
      ∧ (∀ q c, lookupOff s.stored q = some c → lookupOff s1.stored q = some c)
      ∧ (∀ d, d ∈ ds → ∀ j, j < d.2.length → lookupOff s1.stored (d.1 + j) = d.2[j]?)
      ∧ (∀ q c, lookupOff s1.stored q = some c →
          lookupOff s.stored q = some c ∨ coveredBy ds q) := by
  induction ds with
  | nil =>
    intro s fed s1 fed1 inv h
    unfold runDeliveries at h
    injection h with h1 h2
    injection h1 with h1a h1b
    subst h1a
    subst h1b
    refine ⟨inv, fun q c hq => hq, ?_, fun q c hq => Or.inl hq⟩
    intro d hd
    exact absurd hd (by simp)
  | cons d rest ih =>
    intro s fed s1 fed1 inv h
    unfold runDeliveries at h
    rcases hh : cryptoStream.handleCrypto s d.1 d.2 with ⟨sp, oe⟩
    rw [hh] at h
    cases oe with
    | some e => cases h
    | none =>
      obtain ⟨inv2, mono2, pos2, rev2⟩ := streamHandle_ok s d.1 d.2 sp fed hh inv
      obtain ⟨inv3, mono3, pos3, rev3⟩ := ih sp.1 (fed ++ sp.2) s1 fed1 inv2 h
      refine ⟨inv3, fun q c hq => mono3 q c (mono2 q c hq), ?_, ?_⟩
      · intro d2 hd2 j hj
        rcases List.mem_cons.mp hd2 with rfl | hmem
        · have hp := pos2 j hj
          rw [List.getElem?_eq_getElem hj] at hp ⊢
          exact mono3 _ _ hp
        · exact pos3 d2 hmem j hj
      · intro q c hq
        rcases rev3 q c hq with hq2 | hcov
        · rcases rev2 q c hq2 with hq3 | hin
          · exact Or.inl hq3
          · exact Or.inr ⟨d, List.mem_cons_self d rest, hin.1, hin.2⟩
        · obtain ⟨d2, hd2, hle, hlt⟩ := hcov
          exact Or.inr ⟨d2, List.mem_cons_of_mem d hd2, hle, hlt⟩

/-- C7: for any sequence of successful inbound deliveries to one space
whose spans cover exactly the contiguous byte range below N starting at
the fresh stream's delivery cursor, the byte sequence fed to the TLS
engine has length N and carries each delivered byte at its own offset —
the exact concatenation of the contiguous data, fed in offset order with
no gaps and no byte fed twice. -/
theorem C7_contiguous_feed (ds : List (Nat × List Nat)) (N : Nat)
    (s1 : cryptoStream) (fed : List Nat)
    (hrun : runDeliveries cryptoStream.init [] ds = ((s1, fed), none))
    (hcov : ∀ o, coveredBy ds o ↔ o < N) :
    fed.length = N
    ∧ (∀ d, d ∈ ds → ∀ j, j < d.2.length → fed[d.1 + j]? = d.2[j]?) := by
  have inv0 : StreamInv cryptoStream.init [] := by
    refine ⟨?_, ?_, ?_, ?_, ?_⟩ <;> simp [cryptoStream.init, lookupOff]
  obtain ⟨inv1, mono, pos, rev⟩ := runDeliveries_ok ds cryptoStream.init [] s1 fed inv0 hrun
  have hstored : ∀ o, o < N → ∃ b, lookupOff s1.stored o = some b := by
    intro o ho
    obtain ⟨d, hd, h1, h2⟩ := (hcov o).mpr ho
    have hj : o - d.1 < d.2.length := by omega
    have hp := pos d hd (o - d.1) hj
    rw [show d.1 + (o - d.1) = o by omega] at hp
    rw [List.getElem?_eq_getElem hj] at hp
    exact ⟨_, hp⟩
  have hcov2 : ∀ o b, lookupOff s1.stored o = some b → o < N := by
    intro o b hb
    rcases rev o b hb with hb2 | hb2
    · simp [cryptoStream.init, lookupOff] at hb2
    · exact (hcov o).mp hb2
  have hN1 : N ≤ s1.next := by
    by_contra hlt
    push_neg at hlt
    obtain ⟨b, hb⟩ := hstored s1.next hlt
    rw [inv1.gapAtNext] at hb
    cases hb
  have hN2 : s1.next ≤ N := by
    by_contra hlt
    push_neg at hlt
    have hNlen : N < fed.length := by rw [inv1.fedLen]; exact hlt
    have hfi := inv1.fedStored N hlt
    rw [List.getElem?_eq_getElem hNlen] at hfi
    exact absurd (hcov2 N _ hfi) (lt_irrefl N)
  have hnext : s1.next = N := le_antisymm hN2 hN1
  refine ⟨by rw [inv1.fedLen, hnext], ?_⟩
  intro d hd j hj
  have hp := pos d hd j hj
  have hcovj : d.1 + j < N := (hcov (d.1 + j)).mp ⟨d, hd, by omega, by omega⟩
  have hlt : d.1 + j < s1.next := by omega
  have hfi := inv1.fedStored (d.1 + j) hlt
  rw [hp] at hfi
  exact hfi.symm

/-- Witness for C7: delivering the span at offset 0 with bytes 5, 6 and
then the span at offset 2 with byte 7 covers exactly the range below 3
and feeds exactly those three bytes in order. -/
theorem C7_witness :
    (runDeliveries cryptoStream.init [] [(0, [5, 6]), (2, [7])]
        = (((runDeliveries cryptoStream.init [] [(0, [5, 6]), (2, [7])]).1.1,
            (runDeliveries cryptoStream.init [] [(0, [5, 6]), (2, [7])]).1.2), none))
    ∧ (∀ o, coveredBy [(0, [5, 6]), (2, [7])] o ↔ o < 3)
    ∧ ((runDeliveries cryptoStream.init [] [(0, [5, 6]), (2, [7])]).1.2.length = 3
      ∧ (∀ d, d ∈ [(0, [5, 6]), (2, [7])] → ∀ j, j < d.2.length →
          (runDeliveries cryptoStream.init [] [(0, [5, 6]), (2, [7])]).1.2[d.1 + j]?
            = d.2[j]?)) :=
  ⟨rfl,
   by
    intro o
    constructor
    · rintro ⟨d, hd, h1, h2⟩
      simp only [List.mem_cons, List.mem_singleton] at hd
      rcases hd with rfl | rfl | h
      · simp at h2
        omega
      · simp at h2
        omega
      · simp at h
    · intro ho
      rcases Nat.lt_or_ge o 2 with h2 | h2
      · exact ⟨(0, [5, 6]), by simp, by omega, by simp; omega⟩
      · exact ⟨(2, [7]), by simp, by omega, by simp; omega⟩,
   C7_contiguous_feed [(0, [5, 6]), (2, [7])] 3 _ _ rfl
    (by
      intro o
      constructor
      · rintro ⟨d, hd, h1, h2⟩
        simp only [List.mem_cons, List.mem_singleton] at hd
        rcases hd with rfl | rfl | h
        · simp at h2
          omega
        · simp at h2
          omega
        · simp at h
      · intro ho
        rcases Nat.lt_or_ge o 2 with h2 | h2
        · exact ⟨(0, [5, 6]), by simp, by omega, by simp; omega⟩
        · exact ⟨(2, [7]), by simp, by omega, by simp; omega⟩)⟩

end Quic
